import Mathlib

/-!
Verification of the Recipe Extraction & Normalization Engine of the
`minegraph` repository.

The definitions below are a shallow embedding of the Python sources:

* `src/core/data_models.py` — `Item`, `TransformationType`, `Transformation`
  (its `__post_init__` validation and `get_signature`);
* `src/core/parsers.py` — the edition classifier `is_java_edition`, the
  section locator `is_in_excluded_section` / `extract_category_from_element`,
  the item resolver `extract_item_from_link`, the slot resolver
  `find_item_in_slot`, the crafting alternative-pairing expansion inside
  `parse_crafting`, and the full `parse_grindstone` / `parse_stonecutter`
  extractors over a document model;
* `src/core/education_edition_blacklist.py` — `is_education_edition_item`.

HTML documents are modelled as a rose tree of element/text nodes; an element
together with its chain of ancestor contexts (a zipper) models a
BeautifulSoup `Tag` with its `parent` / sibling links.  Python `set`-based
deduplication of `Item`s (hash and equality by `name`) is modelled as
first-occurrence deduplication by name; every downstream observation made by
the claims (signatures, name sets, list lengths) is invariant under the
iteration order that CPython would choose.  String case-lowering and the
regex character class `\w` are modelled at ASCII precision, which covers all
vocabulary fixed by the engine.
-/

namespace Minegraph

/-! ## Strings: Python helpers used by the sources -/

/-- Substring search on character lists: `pat` occurs as a prefix of some
suffix.  (`listContainsSub_iff` identifies this with `List.IsInfix`.) -/
def listContainsSub (pat : List Char) : List Char → Bool
  | [] => pat.isEmpty
  | c :: rest => pat.isPrefixOf (c :: rest) || listContainsSub pat rest

/-- Python `pat in s` (substring containment). -/
def strContains (s pat : String) : Bool :=
  listContainsSub pat.toList s.toList

/-- Python `s.lower()` at ASCII precision. -/
def pyLower (s : String) : String :=
  String.mk (s.toList.map Char.toLower)

/-- Python `s.startswith(pat)`. -/
def pyStartswith (s pat : String) : Bool :=
  pat.toList.isPrefixOf s.toList

/-- Python `\s` for the ASCII whitespace characters recognised by `str.strip`
and the regex class `\s`. -/
def pyIsSpace (c : Char) : Bool :=
  c = ' ' || c = '\t' || c = '\n' || c = '\r' || c = '\x0c' || c = '\x0b'

/-- Python `\w` (word character) at ASCII precision. -/
def pyIsWord (c : Char) : Bool :=
  c.isAlphanum || c = '_'

/-- Python `s.strip()` at ASCII precision. -/
def pyStrip (s : String) : String :=
  String.mk (((s.toList.dropWhile pyIsSpace).reverse.dropWhile pyIsSpace).reverse)

/-- Python `s.replace(a, b)` for single characters. -/
def pyReplaceChar (s : String) (a b : Char) : String :=
  String.mk (s.toList.map (fun c => if c = a then b else c))

/-- `s.splitOn " "` on character lists (`acc` holds the current field,
reversed). -/
def splitOnSpaceAux : List Char → List Char → List String
  | [], acc => [String.mk acc.reverse]
  | c :: rest, acc =>
      if c = ' ' then String.mk acc.reverse :: splitOnSpaceAux rest []
      else splitOnSpaceAux rest (c :: acc)

/-- `s.splitOn " "`: how bs4 turns a `class` attribute into a class list. -/
def pySplitSpace (s : String) : List String :=
  splitOnSpaceAux s.toList []

/-! ## Data model (`src/core/data_models.py`) -/

/-- `TransformationType` — the fixed enumeration of mechanisms. -/
inductive TransformationType where
  | bartering
  | blast_furnace
  | brewing
  | composting
  | crafting
  | grindstone
  | mob_drop
  | smelting
  | smithing
  | smoker
  | stonecutter
  | trading
deriving DecidableEq, Repr

/-- `Item` — a name together with a wiki URL.  In the source, equality and
hashing are by `name` alone; here equality is structural and the name-based
identification is applied explicitly wherever the source relies on it
(`dedupByName`, `pyIndexByName`). -/
structure Item where
  name : String
  url : String
deriving DecidableEq, Repr

/-- Metadata values that the extractors store (`has_alternatives` flags,
category / villager-type strings). -/
inductive MVal where
  | b (v : Bool)
  | s (v : String)
deriving DecidableEq, Repr

/-- First-occurrence deduplication by `Item.name`, carrying the set of names
already seen.  Models `list(set(xs))` under name-based hash/equality; the
iteration order CPython produces is unspecified, and every property proved
below is insensitive to it. -/
def dedupByNameAux : List Item → List String → List Item
  | [], _ => []
  | x :: xs, seen =>
      if x.name ∈ seen then dedupByNameAux xs seen
      else x :: dedupByNameAux xs (x.name :: seen)

/-- `list(set(xs))` for `Item` lists (dedup by name). -/
def dedupByName (xs : List Item) : List Item :=
  dedupByNameAux xs []

/-- `Transformation` — mechanism kind, deduplicated inputs and outputs, and
metadata (an insertion-ordered association list mirroring a Python `dict`). -/
structure Transformation where
  transformation_type : TransformationType
  inputs : List Item
  outputs : List Item
  metadata : List (String × MVal)
deriving DecidableEq, Repr

/-- `Transformation.__post_init__` (`data_models.py` lines 49–63): dedup
`inputs` and `outputs` by name, then fail if the inputs are empty, the
outputs are empty, or more than one output remains.  An exception in Python
is an `Except.error` here. -/
def mkTransformation (ty : TransformationType) (inputs outputs : List Item)
    (metadata : List (String × MVal) := []) : Except String Transformation :=
  if dedupByName inputs = [] then .error "Transformation must have at least one input"
  else if dedupByName outputs = [] then .error "Transformation must have at least one output"
  else if (dedupByName outputs).length > 1 then
    .error "Transformation must have exactly one output item"
  else .ok { transformation_type := ty, inputs := dedupByName inputs,
             outputs := dedupByName outputs, metadata := metadata }

/-- The same construction without the (provably dead, at every extractor call
site) failure paths: dedup by name and build the record.  The lemma
`mkTransformation_ok` connects it to `mkTransformation`. -/
def mkTransformationT (ty : TransformationType) (inputs outputs : List Item)
    (metadata : List (String × MVal) := []) : Transformation :=
  { transformation_type := ty, inputs := dedupByName inputs,
    outputs := dedupByName outputs, metadata := metadata }

/-- Insert a string into a sorted list (Python's stable `sorted`). -/
def insertSorted (s : String) : List String → List String
  | [] => [s]
  | t :: ts => if s ≤ t then s :: t :: ts else t :: insertSorted s ts

/-- Python `sorted` on a list of strings. -/
def sortStrings : List String → List String
  | [] => []
  | s :: ss => insertSorted s (sortStrings ss)

/-- Insert a metadata pair into a key-sorted list. -/
def insertSortedMeta (p : String × MVal) : List (String × MVal) → List (String × MVal)
  | [] => [p]
  | q :: qs => if p.1 ≤ q.1 then p :: q :: qs else q :: insertSortedMeta p qs

/-- Python `sorted(metadata.items())`; dict keys are distinct, so ordering by
key alone matches the tuple ordering Python uses. -/
def sortMeta : List (String × MVal) → List (String × MVal)
  | [] => []
  | p :: ps => insertSortedMeta p (sortMeta ps)

/-- `Transformation.get_signature` (`data_models.py` lines 65–75): kind,
sorted input names, sorted output names, sorted metadata items. -/
def Transformation.get_signature (t : Transformation) :
    TransformationType × List String × List String × List (String × MVal) :=
  (t.transformation_type, sortStrings (t.inputs.map Item.name),
   sortStrings (t.outputs.map Item.name), sortMeta t.metadata)

/-! ### Page-scoped signature deduplication

Every extractor that deduplicates does so with a page-scoped
`seen_signatures` set, adding a transformation only when its signature is
unseen.  Candidate generation never reads the set, so a parser's output is
the first-occurrence-by-signature filtering of its candidate stream. -/

/-- The type of `Transformation.get_signature` values. -/
abbrev Signature :=
  TransformationType × List String × List String × List (String × MVal)

/-- The `seen_signatures` filtering loop common to the deduplicating
extractors (`parsers.py`, e.g. lines 371–374, 447–451, 670–674). -/
def dedupBySignatureAux : List Transformation → List Signature → List Transformation
  | [], _ => []
  | t :: ts, seen =>
      if t.get_signature ∈ seen then dedupBySignatureAux ts seen
      else t :: dedupBySignatureAux ts (t.get_signature :: seen)

/-- Page-level deduplication: keep the first transformation of each
signature. -/
def dedupBySignature (l : List Transformation) : List Transformation :=
  dedupBySignatureAux l []

/-! ## `parse_quantity` (`parsers.py` lines 169–189) -/

/-- Numeric value of a digit string (Python `int` on a group of `\d`). -/
def digitsVal (ds : List Char) : Nat :=
  ds.foldl (fun acc c => 10 * acc + (c.toNat - 48)) 0

/-- `re.search(r"(\d+)\s*[×x]", text)`: scan left to right; at a digit,
consume the maximal digit run, then maximal whitespace, and require `×` or
`x`.  (Backtracking can never succeed where this fails, because a digit is
neither whitespace nor `×`/`x`.) -/
def searchQtyTimes : List Char → Option Nat
  | [] => none
  | c :: rest =>
      if c.isDigit then
        let ds := (c :: rest).takeWhile Char.isDigit
        let tail := ((c :: rest).dropWhile Char.isDigit).dropWhile pyIsSpace
        match tail with
        | x :: _ =>
            if x = '×' || x = 'x' then some (digitsVal ds) else searchQtyTimes rest
        | [] => searchQtyTimes rest
      else searchQtyTimes rest

/-- `parse_quantity`: quantity before a `×`/`x`, else a leading integer of
the stripped text, else 1. -/
def parse_quantity (text : String) : Nat :=
  match searchQtyTimes text.toList with
  | some n => n
  | none =>
      let lead := (pyStrip text).toList.takeWhile Char.isDigit
      if lead ≠ [] then digitsVal lead else 1

/-! ## The `parse_trading` row emission (`parsers.py` lines 724–816)

For a data row whose "wanted" and "given" cells each hold a single item
link, `parse_trading` parses a quantity from the cell text and appends the
item to the input (resp. output) list once per unit, then builds one
`Transformation` with the first output and the villager type, with no
page-level signature filtering (lines 805–816 append directly). -/

def tradingRowSingleLink (wanted : Item) (wantedCellText : String)
    (given : Item) (givenCellText : String) (villager_type : String) :
    List Transformation :=
  if List.replicate (parse_quantity wantedCellText) wanted ≠ [] ∧
      List.replicate (parse_quantity givenCellText) given ≠ [] then
    [mkTransformationT .trading (List.replicate (parse_quantity wantedCellText) wanted)
      [(List.replicate (parse_quantity givenCellText) given).headD given]
      [("villager_type", .s villager_type)]]
  else []

/-! ## The crafting alternative-pairing expansion
(`parse_crafting`, `parsers.py` lines 315–451)

`parse_crafting` collects, per crafting-table UI fragment, the fixed
single-candidate `input_items`, the multi-candidate `alternative_slots`
(each of length ≥ 2), the non-empty `output_items`, and the fragment's
`category`; the code below line 315 then expands these into concrete
transformations, filtering by the page-scoped signature set.  Candidate
generation never reads that set, so a page consisting of one template
produces `dedupBySignature` of the candidate list. -/

/-- Placeholder item for the (provably in-range, see the branch guards)
Python index accesses. -/
def dItem : Item := ⟨"", ""⟩

/-- Metadata dict built by the crafting branches, in insertion order:
`{"has_alternatives": True}` then optionally `metadata["category"]`; the
no-alternatives branch starts from `{}`. -/
def craftMeta (hasAlt : Bool) (category : Option String) : List (String × MVal) :=
  match hasAlt, category with
  | true, some c => [("has_alternatives", .b true), ("category", .s c)]
  | true, none => [("has_alternatives", .b true)]
  | false, some c => [("category", .s c)]
  | false, none => []

/-- Length of Python `zip(*ls)`: the minimum of the list lengths (0 when
there are no lists). -/
def pyZipLen (ls : List (List Item)) : Nat :=
  match ls with
  | [] => 0
  | l :: ls' => (ls'.map List.length).foldl min l.length

/-- Python `zip(*ls)`: the i-th tuple holds the i-th entry of every list. -/
def pyZip (ls : List (List Item)) : List (List Item) :=
  (List.range (pyZipLen ls)).map (fun i => ls.map (fun l => l.getD i dItem))

/-- The candidate transformations generated for one crafting template
(faithful to `parsers.py` lines 315–451; every `Transformation(...)` call
there has non-empty inputs and a singleton output list, so by
`mkTransformation_ok` the validating constructor cannot raise and
`mkTransformationT` builds the same record). -/
def craftingCandidates (input_items : List Item)
    (alternative_slots : List (List Item)) (output_items : List Item)
    (category : Option String) : List Transformation :=
  if alternative_slots ≠ [] then
    if 2 ≤ alternative_slots.length ∧
        ((alternative_slots.map List.length).dedup.length = 1 ∨
          (1 < output_items.length ∧
            alternative_slots.any (fun s => s.length = output_items.length))) then
      if 1 < output_items.length ∧
          alternative_slots.any (fun s => s.length = output_items.length) then
        -- output-guided: iterate by output index (lines 336–374)
        output_items.enum.map (fun p =>
          let paired_inputs := alternative_slots.map (fun slot =>
            if slot.length = output_items.length then slot.getD p.1 dItem
            else if output_items.length < slot.length then
              match slot.find? (fun it => it.name = p.2.name) with
              | some it => it
              | none => slot.getD (min (p.1 + 1) (slot.length - 1)) dItem
            else slot.getD (p.1 % slot.length) dItem)
          mkTransformationT .crafting (input_items ++ paired_inputs) [p.2]
            (craftMeta true category))
      else
        -- all counts match: zip pairing (lines 376–399)
        (pyZip alternative_slots).map (fun tup =>
          mkTransformationT .crafting (input_items ++ tup)
            (if 1 < output_items.length ∧
                (alternative_slots.headD []).length = output_items.length then
              [output_items.getD
                ((alternative_slots.headD []).findIdx
                  (fun it => it.name = (tup.headD dItem).name)) dItem]
            else [output_items.headD dItem])
            (craftMeta true category))
    else if 1 < output_items.length ∧
        (alternative_slots.headD []).length = output_items.length then
      -- single varying slot paired with outputs by index (lines 401–417)
      (alternative_slots.headD []).enum.map (fun p =>
        mkTransformationT .crafting (input_items ++ [p.2])
          [output_items.getD p.1 dItem] (craftMeta true category))
    else
      -- vary only the first alternative slot, single output (lines 418–436)
      (alternative_slots.headD []).map (fun altItem =>
        mkTransformationT .crafting (input_items ++ [altItem])
          [output_items.headD dItem] (craftMeta true category))
  else if input_items ≠ [] then
    [mkTransformationT .crafting input_items [output_items.headD dItem]
      (craftMeta false category)]
  else []

/-- `parse_crafting` on a page holding a single crafting template: the
candidates filtered through the (initially empty) page-scoped signature
set. -/
def parse_crafting_template (input_items : List Item)
    (alternative_slots : List (List Item)) (output_items : List Item)
    (category : Option String) : List Transformation :=
  dedupBySignature
    (craftingCandidates input_items alternative_slots output_items category)

/-! ## Document model

A parsed page is a rose tree of element and text nodes.  A BeautifulSoup
`Tag` handed to the parsers carries parent and sibling links; it is modelled
as a `Loc`: the node itself plus the chain of ancestor contexts (`Crumb`s),
each recording the ancestor's tag name, attributes, and the siblings to the
left (nearest first) and right of the spine. -/

inductive Node where
  | text (s : String)
  | elem (name : String) (attrs : List (String × String)) (children : List Node)

/-- One ancestor context: the ancestor element's name and attributes, and
the current spine child's previous siblings (nearest first) and next
siblings. -/
structure Crumb where
  name : String
  attrs : List (String × String)
  left : List Node
  right : List Node

/-- A located element: a node plus its ancestor contexts, innermost first. -/
structure Loc where
  node : Node
  crumbs : List Crumb

/-- Attribute lookup (`tag.get(k)`); text nodes have no attributes. -/
def Node.attr : Node → String → Option String
  | .text _, _ => none
  | .elem _ attrs _, k => (attrs.find? (fun p => p.1 = k)).map Prod.snd

/-- `tag.get(k, default)`. -/
def Node.getAttrD (n : Node) (k d : String) : String :=
  (n.attr k).getD d

/-- The multi-valued `class` attribute as BeautifulSoup exposes it. -/
def Node.classes (n : Node) : List String :=
  match n.attr "class" with
  | none => []
  | some s => pySplitSpace s

/-- `tag.name = nm` (false for text nodes). -/
def isTag (nm : String) : Node → Bool
  | .elem t _ _ => t = nm
  | .text _ => false

mutual
/-- `tag.get_text()`: concatenation of all text nodes in document order. -/
def Node.getText : Node → String
  | .text s => s
  | .elem _ _ cs => getTextList cs
def getTextList : List Node → String
  | [] => ""
  | c :: cs => c.getText ++ getTextList cs
end

mutual
/-- `tag.get_text(strip=True)`: each text segment stripped, then joined. -/
def Node.getTextStrip : Node → String
  | .text s => pyStrip s
  | .elem _ _ cs => getTextStripList cs
def getTextStripList : List Node → String
  | [] => ""
  | c :: cs => c.getTextStrip ++ getTextStripList cs
end

mutual
/-- All descendants of a node (excluding itself), in document order. -/
def Node.descendants : Node → List Node
  | .text _ => []
  | .elem _ _ cs => descendantsList cs
def descendantsList : List Node → List Node
  | [] => []
  | c :: cs => c :: (c.descendants ++ descendantsList cs)
end

mutual
/-- All descendants with their ancestor contexts, in document order.
`descLocsList nm ats leftRev rest crumbs` walks the children `rest` of an
element `nm`/`ats` whose earlier children are `leftRev` (nearest first). -/
def descLocsNode : Node → List Crumb → List Loc
  | .text _, _ => []
  | .elem nm ats cs, crumbs => descLocsList nm ats [] cs crumbs
def descLocsList (nm : String) (ats : List (String × String)) :
    List Node → List Node → List Crumb → List Loc
  | _, [], _ => []
  | leftRev, c :: rest, crumbs =>
      let cr : Crumb := ⟨nm, ats, leftRev, rest⟩
      ⟨c, cr :: crumbs⟩ :: (descLocsNode c (cr :: crumbs) ++
        descLocsList nm ats (c :: leftRev) rest crumbs)
end

/-- The chain of ancestors of a located node, innermost first, each again
located (`tag.parent`, iterated). -/
def parentsAux : Node → List Crumb → List Loc
  | _, [] => []
  | n, c :: cs =>
      let p := Node.elem c.name c.attrs (c.left.reverse ++ n :: c.right)
      ⟨p, cs⟩ :: parentsAux p cs

def Loc.parents (l : Loc) : List Loc :=
  parentsAux l.node l.crumbs

/-- `tag.find_parent(names)`: the nearest ancestor with one of the names. -/
def findParent (names : List String) (l : Loc) : Option Loc :=
  l.parents.find? (fun p => names.any (fun nm => isTag nm p.node))

/-- `tag.find_previous_siblings(['h2','h3'])`: earlier sibling elements with
one of the names, nearest first. -/
def findPreviousSiblings (names : List String) (l : Loc) : List Node :=
  match l.crumbs with
  | [] => []
  | c :: _ => c.left.filter (fun n => names.any (fun nm => isTag nm n))

/-- `tag.find_all(nm, class_=cls)` (descendants only, document order). -/
def findAllByClass (nm cls : String) (n : Node) : List Node :=
  n.descendants.filter (fun d => isTag nm d && decide (cls ∈ d.classes))

/-- `tag.find(nm, class_=cls)`: first matching descendant. -/
def findByClass (nm cls : String) (n : Node) : Option Node :=
  n.descendants.find? (fun d => isTag nm d && decide (cls ∈ d.classes))

/-- Remainder of `s` after the first occurrence of `pat` (none if `pat`
never occurs). -/
def firstMatchTail (pat : List Char) : List Char → Option (List Char)
  | [] => if pat.isPrefixOf ([] : List Char) then some [] else none
  | c :: rest =>
      if pat.isPrefixOf (c :: rest) then some ((c :: rest).drop pat.length)
      else firstMatchTail pat rest

/-- `re.search(p1 ++ ".*" ++ p2, s)` for literal fragments `p1`, `p2`: some
occurrence of `p1` is followed (anywhere later) by `p2`; equivalently `p2`
occurs after the first occurrence of `p1`. -/
def regexSearchSeq (p1 p2 s : String) : Bool :=
  match firstMatchTail p1.toList s.toList with
  | some tail => listContainsSub p2.toList tail
  | none => false

/-- bs4 `class_=re.compile(pat)`: the regex is tried against each class of
the multi-valued attribute. -/
def classRegexSeq (p1 p2 : String) (n : Node) : Bool :=
  n.classes.any (fun c => regexSearchSeq p1 p2 c)

/-- `class_=re.compile(pat)` for a pattern without metacharacters:
substring search in each class. -/
def classRegexSub (pat : String) (n : Node) : Bool :=
  n.classes.any (fun c => strContains c pat)

/-- `href=re.compile(r"^/w/")`: the attribute exists and starts with
`/w/`. -/
def hrefIsWiki (n : Node) : Bool :=
  match n.attr "href" with
  | some h => pyStartswith h "/w/"
  | none => false

/-! ## `is_java_edition` (`parsers.py` lines 14–60) -/

def is_java_edition (l : Loc) : Bool :=
  if strContains (pyLower l.node.getText) "bedrock" ||
      strContains (pyLower l.node.getText) "education" then false
  else if (match findParent ["section", "div"] l with
    | some p =>
        strContains (pyLower p.node.getText) "bedrock edition" &&
          !strContains (pyLower p.node.getText) "java edition"
    | none => false) then false
  else
    match findParent ["tr"] l with
    | some row =>
        if (row.node.descendants.filter (isTag "td")).any (fun cell =>
            ((strContains (pyLower cell.getText) "bedrock edition" ||
                strContains (pyLower cell.getText) "bedrock") &&
              (strContains (pyLower cell.getText) "education" ||
                strContains (pyLower cell.getText) "minecraft education")) ||
            (findAllByClass "sup" "Inline-Template" cell).any (fun sup =>
              (strContains (pyLower sup.getText) "bedrock" ||
                strContains (pyLower sup.getText) "education" ||
                strContains (pyLower sup.getText) "minecraft education") &&
              strContains (pyLower sup.getText) "only"))
        then false else true
    | none => true

/-! ## `is_in_excluded_section` (`parsers.py` lines 63–105) -/

/-- `EXCLUDED_CRAFTING_SECTIONS` (`parsers.py` line 11). -/
def EXCLUDED_CRAFTING_SECTIONS : List String :=
  ["Removed_recipes", "Changed_recipes"]

/-- The first `<span class="mw-headline">` descendant
(`x.find('span', class_='mw-headline')`). -/
def findHeadline (n : Node) : Option Node :=
  findByClass "span" "mw-headline" n

/-- Truthy-and-excluded test on an optional id (`if the_id and the_id in
excluded_ids`). -/
def idTruthyIn (excluded : List String) : Option String → Bool
  | some i => i ≠ "" && i ∈ excluded
  | none => false

/-- The scan of previous `h2`/`h3` siblings in `is_in_excluded_section`
(lines 92–101): first headline with a truthy id decides. -/
def excludedSibScan (excluded : List String) : List Node → Option Bool
  | [] => none
  | sib :: rest =>
      match findHeadline sib with
      | some hl =>
          match hl.attr "id" with
          | some i =>
              if i ≠ "" then
                (if i ∈ excluded then some true else some false)
              else excludedSibScan excluded rest
          | none => excludedSibScan excluded rest
      | none => excludedSibScan excluded rest

/-- The body of the `while current:` walk of `is_in_excluded_section`, over
the chain of the element and its ancestors. -/
def isInExcludedSteps (excluded : List String) : List Loc → Bool
  | [] => false
  | cur :: rest =>
      if idTruthyIn excluded (cur.node.attr "id") then true
      else if (["h2", "h3", "h4"] : List String).any (fun nm => isTag nm cur.node) &&
          (match findHeadline cur.node with
            | some hl => idTruthyIn excluded (hl.attr "id")
            | none => false) then true
      else
        match excludedSibScan excluded (findPreviousSiblings ["h2", "h3"] cur) with
        | some b => b
        | none => isInExcludedSteps excluded rest

def is_in_excluded_section (l : Loc)
    (excluded : List String := EXCLUDED_CRAFTING_SECTIONS) : Bool :=
  isInExcludedSteps excluded (l :: l.parents)

/-! ## `extract_category_from_element` (`parsers.py` lines 218–253) -/

/-- The category slug normalization (lines 244–248): lower-case, drop
characters that are neither word nor whitespace, then replace each space
with an underscore. -/
def normalizeCategory (t : String) : String :=
  pyReplaceChar
    (String.mk ((pyLower t).toList.filter (fun c => pyIsWord c || pyIsSpace c)))
    ' ' '_'

/-- The scan of previous `h2`/`h3` siblings in
`extract_category_from_element` (lines 232–248): `some none` models
`return None`, `some (some s)` a returned slug, `none` falling through to
the parent level. -/
def categorySibScan : List Node → Option (Option String)
  | [] => none
  | sib :: rest =>
      match findHeadline sib with
      | some hl =>
          if idTruthyIn EXCLUDED_CRAFTING_SECTIONS (hl.attr "id") then some none
          else if hl.getTextStrip ≠ "" then
            some (some (normalizeCategory hl.getTextStrip))
          else categorySibScan rest
      | none => categorySibScan rest

def extractCategorySteps : List Loc → Option String
  | [] => none
  | cur :: rest =>
      match categorySibScan (findPreviousSiblings ["h2", "h3"] cur) with
      | some r => r
      | none => extractCategorySteps rest

def extract_category_from_element (l : Loc) : Option String :=
  extractCategorySteps (l :: l.parents)

/-! ## `is_education_edition_item`
(`src/core/education_edition_blacklist.py`) -/

def JAVA_EDITION_ITEMS_TO_KEEP : List String :=
  ["Copper Ingot", "Copper Block", "Copper Ore", "Raw Copper", "Sugar Cane",
   "Sugar", "Ice", "Packed Ice", "Blue Ice"]

def EDUCATION_EDITION_ITEMS : List String :=
  ["Cerium Chloride", "Mercuric Chloride", "Potassium Chloride",
   "Tungsten Chloride",
   "Aluminum", "Argon", "Barium", "Beryllium", "Bismuth", "Boron", "Bromine",
   "Cadmium", "Calcium", "Carbon", "Cerium", "Cesium", "Chlorine", "Chromium",
   "Cobalt", "Copper", "Fluorine", "Gadolinium", "Gallium", "Germanium",
   "Helium", "Hydrogen", "Iodine", "Krypton", "Lanthanum", "Lithium",
   "Magnesium", "Mercury", "Neon", "Nickel", "Nitrogen", "Oxygen",
   "Phosphorus", "Polonium", "Potassium", "Radon", "Rubidium", "Scandium",
   "Selenium", "Silicon", "Silver", "Sodium", "Strontium", "Sulfur",
   "Tantalum", "Tellurium", "Tin", "Titanium", "Tungsten", "Uranium",
   "Xenon", "Yttrium", "Zinc",
   "Ammonia", "Barium Sulfate", "Benzene", "Boron Trioxide",
   "Calcium Bromide", "Calcium Chloride", "Crude Oil", "Glue",
   "Hydrogen Peroxide", "Ice Bomb", "Iron Sulfide", "Latex",
   "Lithium Hydride", "Magnesium Nitrate", "Magnesium Oxide", "Polyethylene",
   "Potassium Iodide", "Salt", "Soap", "Sodium Acetate", "Sodium Fluoride",
   "Sodium Hydride", "Sodium Hypochlorite", "Sodium Oxide", "Sugar",
   "Sulfate", "Water",
   "Blue Torch", "Red Torch", "Purple Torch", "Green Torch",
   "Blue Sparkler", "Red Sparkler", "Purple Sparkler", "Green Sparkler",
   "Orange Sparkler", "White Sparkler",
   "Blue Glow Stick", "Red Glow Stick", "Purple Glow Stick",
   "Green Glow Stick", "Orange Glow Stick", "White Glow Stick",
   "Yellow Glow Stick",
   "White Balloon", "Orange Balloon", "Magenta Balloon",
   "Light Blue Balloon", "Yellow Balloon", "Lime Balloon", "Pink Balloon",
   "Gray Balloon", "Light Gray Balloon", "Cyan Balloon", "Purple Balloon",
   "Blue Balloon", "Brown Balloon", "Green Balloon", "Red Balloon",
   "Black Balloon",
   "Bleach", "Heat Block", "Super Fertilizer", "Hardened Glass",
   "Hardened Glass Pane", "Hardened Stained Glass",
   "Hardened Stained Glass Pane", "Colored Torch", "Underwater Torch",
   "Underwater TNT", "Element Constructor", "Compound Creator",
   "Material Reducer", "Lab Table", "Portfolio", "Chalkboard", "Poster",
   "Slate", "Allow", "Deny", "Border", "Camera", "NPC"]

def is_education_edition_item (item_name : String) : Bool :=
  if item_name ∈ JAVA_EDITION_ITEMS_TO_KEEP then false
  else item_name ∈ EDUCATION_EDITION_ITEMS

/-! ## `extract_item_from_link` (`parsers.py` lines 108–166) -/

def INFOBOX_CLASSES : List String :=
  ["infobox-imagecaption", "infobox", "notaninfobox"]

def extract_item_from_link (l : Loc) : Option Item :=
  if !isTag "a" l.node then none
  else
    let href := l.node.getAttrD "href" ""
    if href = "" || !pyStartswith href "/w/" then none
    else if l.parents.any (fun p =>
        INFOBOX_CLASSES.any (fun cls => decide (cls ∈ p.node.classes))) then none
    else if (["li", "td"] : List String).any (fun parentType =>
        match findParent [parentType] l with
        | some pe =>
            (findAllByClass "sup" "Inline-Template" pe.node).any (fun sup =>
              strContains (pyLower sup.getText) "bedrock" ||
              strContains (pyLower sup.getText) "education" ||
              (strContains (pyLower sup.getText) "be" &&
                strContains (pyLower sup.getText) "only"))
        | none => false) then none
    else
      let nameFromHref := pyReplaceChar (String.mk (href.toList.drop 3)) '_' ' '
      let title := l.node.getAttrD "title" ""
      let name := if title ≠ "" then title else nameFromHref
      if is_education_edition_item name then none
      else some ⟨name, "https://minecraft.wiki" ++ href⟩

/-! ## `find_item_in_slot` (`parsers.py` lines 192–215) -/

def find_item_in_slot (slot : Loc) : List Item :=
  ((descLocsNode slot.node slot.crumbs).filter (fun d =>
      isTag "span" d.node && decide ("invslot-item" ∈ d.node.classes))).filterMap
    (fun container =>
      match (descLocsNode container.node container.crumbs).find? (fun d =>
          isTag "a" d.node && hrefIsWiki d.node) with
      | some link => extract_item_from_link link
      | none => none)

/-! ## `parse_grindstone` (`parsers.py` lines 1204–1248)

This extractor appends each emitted transformation directly: it has no
`seen_signatures` set. -/

def parse_grindstone (doc : Node) : List Transformation :=
  ((descLocsNode doc []).filter (fun d =>
      isTag "span" d.node && classRegexSeq "mcui" "Grindstone" d.node)).filterMap
    (fun ui =>
      if !is_java_edition ui then none
      else
        let input_items :=
          (((descLocsNode ui.node ui.crumbs).filter (fun d =>
              isTag "span" d.node && classRegexSub "mcui-input" d.node)).map
            find_item_in_slot).flatten
        match (descLocsNode ui.node ui.crumbs).find? (fun d =>
            isTag "span" d.node && decide ("mcui-output" ∈ d.node.classes)) with
        | none => none
        | some osec =>
            let output_items := find_item_in_slot osec
            if input_items ≠ [] ∧ output_items ≠ [] then
              some (mkTransformationT .grindstone input_items
                [output_items.headD dItem] [])
            else none)

/-! ## `parse_stonecutter` (`parsers.py` lines 626–676)

This extractor filters through a page-scoped `seen_signatures` set
(lines 670–674); candidate generation never reads the set. -/

def stonecutterCandidates (doc : Node) : List Transformation :=
  (((descLocsNode doc []).filter (fun d =>
      isTag "span" d.node && classRegexSeq "mcui" "Stonecutter" d.node)).map
    (fun ui =>
      if !is_java_edition ui then []
      else
        match (descLocsNode ui.node ui.crumbs).find? (fun d =>
            isTag "span" d.node && decide ("mcui-input" ∈ d.node.classes)) with
        | none => []
        | some isec =>
            let input_items := find_item_in_slot isec
            match (descLocsNode ui.node ui.crumbs).find? (fun d =>
                isTag "span" d.node && decide ("mcui-output" ∈ d.node.classes)) with
            | none => []
            | some osec =>
                let output_items := find_item_in_slot osec
                if input_items ≠ [] ∧ output_items ≠ [] then
                  output_items.map (fun o =>
                    mkTransformationT .stonecutter input_items [o] [])
                else [])).flatten

def parse_stonecutter (doc : Node) : List Transformation :=
  dedupBySignature (stonecutterCandidates doc)

/-! ## Concrete example documents -/

/-- An item link `<a href="/w/...">`. -/
def itemLink (slug : String) : Node :=
  Node.elem "a" [("href", "/w/" ++ slug)] []

/-- An inventory slot item container wrapping a link. -/
def invslotItem (slug : String) : Node :=
  Node.elem "span" [("class", "invslot-item")] [itemLink slug]

/-- A grindstone UI fragment: one input slot and one output slot holding a
Wooden Sword. -/
def grindUI : Node :=
  Node.elem "span" [("class", "mcui-Grindstone")]
    [Node.elem "span" [("class", "mcui-input")] [invslotItem "Wooden_Sword"],
     Node.elem "span" [("class", "mcui-output")] [invslotItem "Wooden_Sword"]]

/-- A page with the same grindstone recipe rendered twice. -/
def docC4 : Node := Node.elem "div" [] [grindUI, grindUI]

/-- A wiki heading with the given headline id and visible text. -/
def wikiHeading (hid txt : String) : Node :=
  Node.elem "h2" []
    [Node.elem "span" [("class", "mw-headline"), ("id", hid)] [Node.text txt]]

/-- The headline span inside `wikiHeading hid txt`. -/
def wikiHeadline (hid txt : String) : Node :=
  Node.elem "span" [("class", "mw-headline"), ("id", hid)] [Node.text txt]

/-- A fragment located directly after the `Removed_recipes` heading. -/
def locC8 : Loc :=
  ⟨Node.elem "span" [] [],
   [⟨"div", [], [wikiHeading "Removed_recipes" "Removed recipes"], []⟩]⟩

/-- A fragment located after a heading whose visible text holds two
consecutive spaces. -/
def locC9x : Loc :=
  ⟨Node.elem "span" [] [],
   [⟨"div", [], [wikiHeading "Oak_Planks" "Oak  Planks"], []⟩]⟩

/-- A fragment located after an ordinary `Crafting recipes` heading. -/
def locC9w : Loc :=
  ⟨Node.elem "span" [] [],
   [⟨"div", [], [wikiHeading "Crafting" "Crafting recipes"], []⟩]⟩

/-! ### Basic facts about name-deduplication -/

theorem dedupByNameAux_nil_iff (xs : List Item) (seen : List String)
    (h : ∀ x ∈ xs, x.name ∉ seen) : dedupByNameAux xs seen = [] ↔ xs = [] := by
  cases xs with
  | nil => simp [dedupByNameAux]
  | cons x xs =>
      have hx : x.name ∉ seen := h x (by simp)
      simp [dedupByNameAux, hx]

theorem dedupByName_nil_iff (xs : List Item) : dedupByName xs = [] ↔ xs = [] := by
  simpa [dedupByName] using dedupByNameAux_nil_iff xs [] (by simp)

theorem dedupByNameAux_names_nodup (xs : List Item) (seen : List String) :
    ((dedupByNameAux xs seen).map Item.name).Nodup ∧
      ∀ y ∈ dedupByNameAux xs seen, y.name ∉ seen := by
  induction xs generalizing seen with
  | nil => simp [dedupByNameAux]
  | cons x xs ih =>
      by_cases hx : x.name ∈ seen
      · simp only [dedupByNameAux, hx, if_pos]
        exact (ih seen)
      · simp only [dedupByNameAux, hx, if_neg, not_false_iff, List.map_cons]
        obtain ⟨hnd, hseen⟩ := ih (x.name :: seen)
        refine ⟨List.nodup_cons.mpr ⟨?_, hnd⟩, ?_⟩
        · intro hmem
          obtain ⟨y, hy, hyname⟩ := List.mem_map.mp hmem
          exact (hseen y hy) (by simp [hyname])
        · intro y hy
          rcases List.mem_cons.mp hy with hy | hy
          · simpa [hy] using hx
          · intro hmem
            exact (hseen y hy) (by simp [hmem])

/-- The names of a deduplicated item list are pairwise distinct. -/
theorem dedupByName_names_nodup (xs : List Item) :
    ((dedupByName xs).map Item.name).Nodup :=
  (dedupByNameAux_names_nodup xs []).1

theorem dedupByName_singleton (x : Item) : dedupByName [x] = [x] := by
  simp [dedupByName, dedupByNameAux]

/-- At every extractor construction site the inputs are non-empty and the
outputs are a singleton list, so `__post_init__` cannot raise:
`mkTransformation` succeeds and returns exactly the record built by
`mkTransformationT`. -/
theorem mkTransformation_ok (ty : TransformationType) (inputs : List Item)
    (o : Item) (metadata : List (String × MVal)) (h : inputs ≠ []) :
    mkTransformation ty inputs [o] metadata =
      .ok (mkTransformationT ty inputs [o] metadata) := by
  have hi : dedupByName inputs ≠ [] := fun hc => h ((dedupByName_nil_iff inputs).mp hc)
  simp [mkTransformation, mkTransformationT, dedupByName_singleton, hi]

/-- A deduplicated name list of a list with a positive count of copies of one
item collapses to that item alone. -/
theorem dedupByNameAux_replicate_mem (n : Nat) (x : Item) (seen : List String)
    (h : x.name ∈ seen) : dedupByNameAux (List.replicate n x) seen = [] := by
  induction n with
  | zero => simp [dedupByNameAux]
  | succ n ih => simp [List.replicate_succ, dedupByNameAux, h, ih]

theorem dedupByName_replicate (q : Nat) (hq : 1 ≤ q) (x : Item) :
    dedupByName (List.replicate q x) = [x] := by
  obtain ⟨n, rfl⟩ : ∃ n, q = n + 1 := ⟨q - 1, by omega⟩
  simp [dedupByName, List.replicate_succ, dedupByNameAux,
    dedupByNameAux_replicate_mem n x [x.name] (by simp)]

theorem dedupBySignatureAux_spec (ts : List Transformation) (seen : List Signature) :
    ((dedupBySignatureAux ts seen).map Transformation.get_signature).Nodup ∧
      ∀ t ∈ dedupBySignatureAux ts seen, t.get_signature ∉ seen := by
  induction ts generalizing seen with
  | nil => simp [dedupBySignatureAux]
  | cons t ts ih =>
      by_cases ht : t.get_signature ∈ seen
      · simp only [dedupBySignatureAux, ht, if_pos]
        exact ih seen
      · simp only [dedupBySignatureAux, ht, if_neg, not_false_iff, List.map_cons]
        obtain ⟨hnd, hseen⟩ := ih (t.get_signature :: seen)
        refine ⟨List.nodup_cons.mpr ⟨?_, hnd⟩, ?_⟩
        · intro hmem
          obtain ⟨y, hy, hysig⟩ := List.mem_map.mp hmem
          exact (hseen y hy) (by simp [hysig])
        · intro y hy
          rcases List.mem_cons.mp hy with hy | hy
          · simpa [hy] using ht
          · intro hmem
            exact (hseen y hy) (by simp [hmem])

/-- The output of the signature-filtering loop has pairwise distinct
signatures. -/
theorem dedupBySignature_nodup (l : List Transformation) :
    ((dedupBySignature l).map Transformation.get_signature).Nodup :=
  (dedupBySignatureAux_spec l []).1

/-! ### Helper lemmas: sorting permutes, dedup of duplicate-free lists -/

theorem insertSorted_perm (s : String) (l : List String) :
    (insertSorted s l).Perm (s :: l) := by
  induction l with
  | nil => simp [insertSorted]
  | cons t ts ih =>
      by_cases h : s ≤ t
      · simp [insertSorted, h]
      · simp only [insertSorted, h, if_neg, not_false_iff]
        exact (ih.cons t).trans (List.Perm.swap s t ts)

theorem sortStrings_perm (l : List String) : (sortStrings l).Perm l := by
  induction l with
  | nil => simp [sortStrings]
  | cons s ss ih =>
      exact (insertSorted_perm s (sortStrings ss)).trans (ih.cons s)

theorem dedupByNameAux_of_nodup (xs : List Item) (seen : List String)
    (hnd : (xs.map Item.name).Nodup) (hdisj : ∀ x ∈ xs, x.name ∉ seen) :
    dedupByNameAux xs seen = xs := by
  induction xs generalizing seen with
  | nil => simp [dedupByNameAux]
  | cons x xs ih =>
      have hx : x.name ∉ seen := hdisj x (by simp)
      simp only [dedupByNameAux, hx, if_neg, not_false_iff]
      congr 1
      apply ih
      · exact (List.nodup_cons.mp hnd).2
      · intro y hy
        simp only [List.mem_cons, not_or]
        refine ⟨?_, hdisj y (by simp [hy])⟩
        intro hc
        exact (List.nodup_cons.mp hnd).1 (List.mem_map.mpr ⟨y, hy, hc⟩)

/-- A list whose names are pairwise distinct is unchanged by
name-deduplication. -/
theorem dedupByName_of_nodup (xs : List Item) (hnd : (xs.map Item.name).Nodup) :
    dedupByName xs = xs :=
  dedupByNameAux_of_nodup xs [] hnd (by simp)

theorem dedupBySignatureAux_of_nodup (ts : List Transformation) (seen : List Signature)
    (hnd : (ts.map Transformation.get_signature).Nodup)
    (hdisj : ∀ t ∈ ts, t.get_signature ∉ seen) :
    dedupBySignatureAux ts seen = ts := by
  induction ts generalizing seen with
  | nil => simp [dedupBySignatureAux]
  | cons t ts ih =>
      have ht : t.get_signature ∉ seen := hdisj t (by simp)
      simp only [dedupBySignatureAux, ht, if_neg, not_false_iff]
      congr 1
      apply ih
      · exact (List.nodup_cons.mp hnd).2
      · intro y hy
        simp only [List.mem_cons, not_or]
        refine ⟨?_, hdisj y (by simp [hy])⟩
        intro hc
        exact (List.nodup_cons.mp hnd).1 (List.mem_map.mpr ⟨y, hy, hc⟩)

/-- Signature filtering is the identity on a candidate list whose signatures
are already pairwise distinct. -/
theorem dedupBySignature_of_nodup (ts : List Transformation)
    (hnd : (ts.map Transformation.get_signature).Nodup) :
    dedupBySignature ts = ts :=
  dedupBySignatureAux_of_nodup ts [] hnd (by simp)

/-- The signature of a single-output construction: the sorted-output-names
component is the output's name alone. -/
theorem get_signature_single_output (ty : TransformationType) (ins : List Item)
    (o : Item) (m : List (String × MVal)) :
    (mkTransformationT ty ins [o] m).get_signature =
      (ty, sortStrings ((dedupByName ins).map Item.name), [o.name], sortMeta m) := by
  simp [mkTransformationT, Transformation.get_signature, dedupByName_singleton,
    sortStrings, insertSorted]

/-- Distinct output names make the signatures of an output-indexed candidate
family pairwise distinct (the sorted-output-names signature component of the
candidate at output index `i` is exactly `[name of output i]`). -/
theorem sig_nodup_output_guided (outs : List Item) (g : Nat × Item → List Item)
    (m : List (String × MVal)) (hnd : (outs.map Item.name).Nodup) :
    ((outs.enum.map (fun p => mkTransformationT .crafting (g p) [p.2] m)).map
      Transformation.get_signature).Nodup := by
  have hbase : (outs.enum.map (fun p => ([p.2.name] : List String))).Nodup := by
    have heq : outs.enum.map (fun p => ([p.2.name] : List String))
        = (outs.map Item.name).map (fun s => [s]) := by
      have hstep : outs.enum.map (fun p => ([p.2.name] : List String))
          = (outs.enum.map Prod.snd).map (fun it => [it.name]) := by
        rw [List.map_map]; rfl
      rw [hstep, List.enum_map_snd, List.map_map]; rfl
    rw [heq]
    exact hnd.map (fun a b hab => by simpa using hab)
  have hproj : ((outs.enum.map
        (fun p => mkTransformationT .crafting (g p) [p.2] m)).map
      Transformation.get_signature).map (fun s => s.2.2.1)
      = outs.enum.map (fun p => ([p.2.name] : List String)) := by
    rw [List.map_map, List.map_map]
    apply List.map_congr_left
    intro p hp
    simp [get_signature_single_output]
  exact List.Nodup.of_map _ (hproj ▸ hbase)

/-! ## Claims C1, C2: the alternative pairing algorithm -/

/-- C1: for a template with two alternative slots of equal length `n` and
`n` output candidates (output-guided), the expansion pairs the `i`-th entry
of each slot with the `i`-th output — exactly `n` transformations and never
a cross pairing. -/
theorem claim_C1_output_guided_index_pairing (fixed s1 s2 outs : List Item)
    (cat : Option String) (n : Nat)
    (h1 : s1.length = n) (h2 : s2.length = n) (ho : outs.length = n)
    (hn : 2 ≤ n) (hnd : (outs.map Item.name).Nodup) :
    parse_crafting_template fixed [s1, s2] outs cat =
      List.zipWith
        (fun p o => mkTransformationT .crafting (fixed ++ [p.1, p.2]) [o]
          (craftMeta true cat)) (s1.zip s2) outs ∧
    (parse_crafting_template fixed [s1, s2] outs cat).length = n := by
  have hs1 : s1.length = outs.length := by rw [h1, ho]
  have hs2 : s2.length = outs.length := by rw [h2, ho]
  have hout : 1 < outs.length := by rw [ho]; omega
  have hcand : craftingCandidates fixed [s1, s2] outs cat =
      outs.enum.map (fun p =>
        mkTransformationT .crafting
          (fixed ++ [s1.getD p.1 dItem, s2.getD p.1 dItem]) [p.2]
          (craftMeta true cat)) := by
    unfold craftingCandidates
    rw [if_pos (show ([s1, s2] : List (List Item)) ≠ [] by simp),
        if_pos ⟨by simp, Or.inr ⟨hout, by simp [hs1]⟩⟩,
        if_pos ⟨hout, by simp [hs1]⟩]
    apply List.map_congr_left
    intro p hp
    simp [hs1, hs2]
  have hsig := sig_nodup_output_guided outs
    (fun p => fixed ++ [s1.getD p.1 dItem, s2.getD p.1 dItem])
    (craftMeta true cat) hnd
  have hmain : parse_crafting_template fixed [s1, s2] outs cat =
      List.zipWith
        (fun p o => mkTransformationT .crafting (fixed ++ [p.1, p.2]) [o]
          (craftMeta true cat)) (s1.zip s2) outs := by
    rw [parse_crafting_template, hcand, dedupBySignature_of_nodup _ hsig]
    apply List.ext_get
    · simp [List.length_zipWith, List.length_zip, h1, h2, ho]
    · intro i hi1 hi2
      have hio : i < outs.length := by simpa using hi1
      have hi1' : i < s1.length := by omega
      have hi2' : i < s2.length := by omega
      simp only [List.get_eq_getElem, List.getElem_map, List.getElem_enum,
        List.getElem_zipWith, List.getElem_zip]
      rw [List.getD_eq_getElem s1 dItem hi1', List.getD_eq_getElem s2 dItem hi2']
  exact ⟨hmain, by rw [hmain]; simp [List.length_zipWith, List.length_zip, h1, h2, ho]⟩

theorem claim_C1_output_guided_index_pairing_witness :
    parse_crafting_template []
      [[⟨"White Wool", "w1"⟩, ⟨"Green Wool", "w2"⟩],
       [⟨"White Dye", "d1"⟩, ⟨"Green Dye", "d2"⟩]]
      [⟨"White Wool", "w1"⟩, ⟨"Green Wool", "w2"⟩] none =
      [mkTransformationT .crafting [⟨"White Wool", "w1"⟩, ⟨"White Dye", "d1"⟩]
         [⟨"White Wool", "w1"⟩] (craftMeta true none),
       mkTransformationT .crafting [⟨"Green Wool", "w2"⟩, ⟨"Green Dye", "d2"⟩]
         [⟨"Green Wool", "w2"⟩] (craftMeta true none)] := by
  have h := (claim_C1_output_guided_index_pairing []
    [⟨"White Wool", "w1"⟩, ⟨"Green Wool", "w2"⟩]
    [⟨"White Dye", "d1"⟩, ⟨"Green Dye", "d2"⟩]
    [⟨"White Wool", "w1"⟩, ⟨"Green Wool", "w2"⟩] none 2
    rfl rfl rfl (by omega) (by decide)).1
  rw [h]
  decide

/-- C2: for a template with two alternative slots of lengths 3 and 2 and a
single output candidate (no output guidance), the expansion yields exactly 3
transformations — one per entry of the first slot, each paired with the
single output; the second slot's variation is ignored. -/
theorem claim_C2_mismatched_length_fallback (fixed s1 s2 : List Item)
    (out0 : Item) (cat : Option String)
    (h1 : s1.length = 3) (h2 : s2.length = 2)
    (hnd : ((fixed ++ s1).map Item.name).Nodup) :
    parse_crafting_template fixed [s1, s2] [out0] cat =
      s1.map (fun altItem =>
        mkTransformationT .crafting (fixed ++ [altItem]) [out0]
          (craftMeta true cat)) ∧
    (parse_crafting_template fixed [s1, s2] [out0] cat).length = 3 := by
  have hcand : craftingCandidates fixed [s1, s2] [out0] cat =
      s1.map (fun altItem =>
        mkTransformationT .crafting (fixed ++ [altItem]) [out0]
          (craftMeta true cat)) := by
    unfold craftingCandidates
    rw [if_pos (show ([s1, s2] : List (List Item)) ≠ [] by simp),
        if_neg (show ¬(2 ≤ ([s1, s2] : List (List Item)).length ∧ _) from ?_),
        if_neg (show ¬(1 < ([out0] : List Item).length ∧ _) from ?_)]
    · simp
    · simp
    · intro hcontra
      rcases hcontra.2 with hA | hB
      · rw [show ([s1, s2] : List (List Item)).map List.length = [3, 2]
            by simp [h1, h2]] at hA
        simp [List.dedup_cons_of_not_mem] at hA
      · simpa using hB.1
  -- signatures are distinct because the name multiset of each candidate's
  -- deduplicated inputs contains a different first-slot name
  obtain ⟨hfn, hsn, hdisj⟩ := by
    rw [List.map_append] at hnd
    exact List.nodup_append.mp hnd
  have hnodup1 : s1.Nodup := hsn.of_map
  have hinj := List.inj_on_of_nodup_map hsn
  have hded : ∀ x ∈ s1, dedupByName (fixed ++ [x]) = fixed ++ [x] := by
    intro x hx
    apply dedupByName_of_nodup
    rw [List.map_append]
    refine List.nodup_append.mpr ⟨hfn, by simp, ?_⟩
    intro a ha hb
    simp only [List.map_cons, List.map_nil, List.mem_singleton] at hb
    subst hb
    exact hdisj ha (List.mem_map.mpr ⟨x, hx, rfl⟩)
  have hsig : ((s1.map (fun altItem =>
      mkTransformationT .crafting (fixed ++ [altItem]) [out0]
        (craftMeta true cat))).map Transformation.get_signature).Nodup := by
    rw [List.map_map]
    apply List.Nodup.map_on ?_ hnodup1
    intro x hx y hy hxy
    simp only [Function.comp_apply] at hxy
    rw [get_signature_single_output, get_signature_single_output,
      hded x hx, hded y hy] at hxy
    have hcomp : sortStrings ((fixed ++ [x]).map Item.name)
        = sortStrings ((fixed ++ [y]).map Item.name) :=
      congrArg (fun s => s.2.1) hxy
    have hperm : ((fixed ++ [x]).map Item.name).Perm ((fixed ++ [y]).map Item.name) :=
      (sortStrings_perm _).symm.trans
        (hcomp ▸ sortStrings_perm ((fixed ++ [y]).map Item.name))
    have hxnotin : x.name ∉ fixed.map Item.name :=
      fun hc => hdisj hc (List.mem_map.mpr ⟨x, hx, rfl⟩)
    have h1c : ((fixed ++ [x]).map Item.name).count x.name = 1 := by
      rw [List.map_append, List.count_append,
        List.count_eq_zero_of_not_mem hxnotin]
      simp
    have h2c : ((fixed ++ [y]).map Item.name).count x.name
        = if y.name = x.name then 1 else 0 := by
      rw [List.map_append, List.count_append,
        List.count_eq_zero_of_not_mem hxnotin]
      simp [List.count_cons]
    have hone := hperm.count_eq x.name
    rw [h1c, h2c] at hone
    by_cases hxname : y.name = x.name
    · exact hinj hx hy hxname.symm
    · simp [hxname] at hone
  have hmain : parse_crafting_template fixed [s1, s2] [out0] cat =
      s1.map (fun altItem =>
        mkTransformationT .crafting (fixed ++ [altItem]) [out0]
          (craftMeta true cat)) := by
    rw [parse_crafting_template, hcand, dedupBySignature_of_nodup _ hsig]
  exact ⟨hmain, by rw [hmain]; simp [h1]⟩

theorem claim_C2_mismatched_length_fallback_witness :
    parse_crafting_template []
      [[⟨"Oak Planks", "p1"⟩, ⟨"Spruce Planks", "p2"⟩, ⟨"Birch Planks", "p3"⟩],
       [⟨"Stick", "k1"⟩, ⟨"Coal", "k2"⟩]]
      [⟨"Torch", "t"⟩] none =
      [mkTransformationT .crafting [⟨"Oak Planks", "p1"⟩] [⟨"Torch", "t"⟩]
         (craftMeta true none),
       mkTransformationT .crafting [⟨"Spruce Planks", "p2"⟩] [⟨"Torch", "t"⟩]
         (craftMeta true none),
       mkTransformationT .crafting [⟨"Birch Planks", "p3"⟩] [⟨"Torch", "t"⟩]
         (craftMeta true none)] := by
  have h := (claim_C2_mismatched_length_fallback []
    [⟨"Oak Planks", "p1"⟩, ⟨"Spruce Planks", "p2"⟩, ⟨"Birch Planks", "p3"⟩]
    [⟨"Stick", "k1"⟩, ⟨"Coal", "k2"⟩] ⟨"Torch", "t"⟩ none
    rfl rfl (by decide)).1
  rw [h]
  decide

/-! ## Claims C3, C5, C10 -/

/-- C3: a `Transformation` whose inputs or outputs are empty after name-based
dedup is a construction-time failure (an `error`, never a silently dropped
value), and every successfully constructed `Transformation` has at least one
input and at least one output. -/
theorem claim_C3_construction_invariant (ty : TransformationType)
    (inputs outputs : List Item) (m : List (String × MVal)) :
    ((dedupByName inputs = [] ∨ dedupByName outputs = []) →
        ∃ e, mkTransformation ty inputs outputs m = .error e) ∧
    (∀ t, mkTransformation ty inputs outputs m = .ok t →
        1 ≤ t.inputs.length ∧ 1 ≤ t.outputs.length) := by
  constructor
  · rintro (h | h)
    · exact ⟨"Transformation must have at least one input", by simp [mkTransformation, h]⟩
    · by_cases hi : dedupByName inputs = []
      · exact ⟨"Transformation must have at least one input", by simp [mkTransformation, hi]⟩
      · exact ⟨"Transformation must have at least one output",
          by simp [mkTransformation, hi, h]⟩
  · intro t h
    by_cases hi : dedupByName inputs = [] <;>
      by_cases ho : dedupByName outputs = [] <;>
        simp [mkTransformation, hi, ho] at h
    by_cases hlen : (dedupByName outputs).length > 1 <;> simp [hlen] at h
    obtain rfl := h.symm
    constructor
    · show 1 ≤ (dedupByName inputs).length
      simpa [Nat.one_le_iff_ne_zero, List.length_eq_zero] using hi
    · show 1 ≤ (dedupByName outputs).length
      simpa [Nat.one_le_iff_ne_zero, List.length_eq_zero] using ho

theorem claim_C3_construction_invariant_witness :
    ∃ e, mkTransformation .crafting [] [⟨"Stick", "https://minecraft.wiki/w/Stick"⟩] []
      = .error e :=
  (claim_C3_construction_invariant .crafting []
    [⟨"Stick", "https://minecraft.wiki/w/Stick"⟩] []).1 (Or.inl rfl)

/-- C5: this code base implements the strict single-output variant — more
than one output after name-based dedup is a construction-time error, and
every successfully constructed `Transformation` has exactly one output. -/
theorem claim_C5_single_output_variant (ty : TransformationType)
    (inputs outputs : List Item) (m : List (String × MVal)) :
    (1 < (dedupByName outputs).length →
        ∃ e, mkTransformation ty inputs outputs m = .error e) ∧
    (∀ t, mkTransformation ty inputs outputs m = .ok t → t.outputs.length = 1) := by
  constructor
  · intro h
    by_cases hi : dedupByName inputs = []
    · exact ⟨"Transformation must have at least one input", by simp [mkTransformation, hi]⟩
    · have ho : dedupByName outputs ≠ [] := by
        intro hc; rw [hc] at h; simp at h
      exact ⟨"Transformation must have exactly one output item",
        by simp [mkTransformation, hi, ho, h]⟩
  · intro t h
    by_cases hi : dedupByName inputs = [] <;>
      by_cases ho : dedupByName outputs = [] <;>
        simp [mkTransformation, hi, ho] at h
    by_cases hlen : (dedupByName outputs).length > 1 <;> simp [hlen] at h
    obtain rfl := h.symm
    show (dedupByName outputs).length = 1
    have h0 : (dedupByName outputs).length ≠ 0 := by
      simpa [List.length_eq_zero] using ho
    omega

theorem claim_C5_single_output_variant_witness :
    ∃ e, mkTransformation .trading [⟨"Emerald", "u1"⟩]
      [⟨"Book", "u2"⟩, ⟨"Stick", "u3"⟩] [] = .error e :=
  (claim_C5_single_output_variant .trading [⟨"Emerald", "u1"⟩]
    [⟨"Book", "u2"⟩, ⟨"Stick", "u3"⟩] []).1 (by decide)

/-- C10: although the trading row emission appends the wanted and given item
once per unit of the parsed quantity, every transformation it returns has
each item name at most once in its inputs and outputs, and is in fact
exactly the transformation obtained at quantity 1 — quantities are never
observable in the result. -/
theorem claim_C10_trading_quantities_unobservable (wanted given : Item)
    (wt gt vt : String) :
    ∀ t ∈ tradingRowSingleLink wanted wt given gt vt,
      ((t.inputs.map Item.name).Nodup ∧ (t.outputs.map Item.name).Nodup) ∧
        t = mkTransformationT .trading [wanted] [given] [("villager_type", .s vt)] := by
  intro t ht
  unfold tradingRowSingleLink at ht
  by_cases hc :
      List.replicate (parse_quantity wt) wanted ≠ [] ∧
        List.replicate (parse_quantity gt) given ≠ []
  · rw [if_pos hc] at ht
    obtain ⟨hw, hg⟩ := hc
    have hwq : 1 ≤ parse_quantity wt := by
      rcases Nat.eq_zero_or_pos (parse_quantity wt) with h | h
      · rw [h] at hw; simp at hw
      · exact h
    have hgq : 1 ≤ parse_quantity gt := by
      rcases Nat.eq_zero_or_pos (parse_quantity gt) with h | h
      · rw [h] at hg; simp at hg
      · exact h
    have hhead : (List.replicate (parse_quantity gt) given).headD given = given := by
      obtain ⟨n, hn⟩ : ∃ n, parse_quantity gt = n + 1 := ⟨parse_quantity gt - 1, by omega⟩
      rw [hn, List.replicate_succ]; rfl
    obtain rfl := List.mem_singleton.mp ht
    have heq : mkTransformationT .trading
        (List.replicate (parse_quantity wt) wanted)
        [(List.replicate (parse_quantity gt) given).headD given]
        [("villager_type", .s vt)]
        = mkTransformationT .trading [wanted] [given] [("villager_type", .s vt)] := by
      rw [hhead]
      simp [mkTransformationT, dedupByName_replicate _ hwq, dedupByName_singleton]
    refine ⟨?_, heq⟩
    rw [heq]
    exact ⟨by simpa [mkTransformationT] using dedupByName_names_nodup [wanted],
      by simpa [mkTransformationT] using dedupByName_names_nodup [given]⟩
  · rw [if_neg hc] at ht
    simp at ht

theorem claim_C10_trading_quantities_unobservable_witness :
    (mkTransformationT .trading [⟨"Emerald", "u"⟩] [⟨"Glass", "v"⟩]
        [("villager_type", .s "Librarian")]).inputs.length = 1 ∧
      ((mkTransformationT .trading [⟨"Emerald", "u"⟩] [⟨"Glass", "v"⟩]
        [("villager_type", .s "Librarian")]).inputs.map Item.name).Nodup := by
  have h := claim_C10_trading_quantities_unobservable ⟨"Emerald", "u"⟩ ⟨"Glass", "v"⟩
    "15 × Emerald" "4 × Glass" "Librarian"
    (mkTransformationT .trading
      (List.replicate 15 ⟨"Emerald", "u"⟩) [⟨"Glass", "v"⟩]
      [("villager_type", .s "Librarian")]) (by decide)
  constructor
  · rw [← h.2]; decide
  · rw [← h.2]
    exact h.1.1

end Minegraph

namespace Minegraph

/-! ## Claim C4: signature deduplication within a page -/

/-- C4 counterexample: `parse_grindstone` has no page-scoped signature set —
on a page showing the same grindstone recipe twice it returns two
transformations with equal signatures, so the claimed property fails for it
(likewise for `parse_trading`, which also appends directly). -/
theorem claim_C4_counterexample :
    ((parse_grindstone docC4).map Transformation.get_signature).Nodup = false ∧
      (parse_grindstone docC4).length = 2 := by
  constructor
  · decide
  · decide

/-- C4 amended: the extractors that do keep a page-scoped `seen_signatures`
set (here `parse_stonecutter`, and the crafting expansion through
`parse_crafting_template`) return lists whose signatures are pairwise
distinct; `parse_trading` and `parse_grindstone` append without filtering
and are exempt. -/
theorem claim_C4_signature_dedup_where_filtered (doc : Node) (ins : List Item)
    (alts : List (List Item)) (outs : List Item) (cat : Option String) :
    ((parse_stonecutter doc).map Transformation.get_signature).Nodup ∧
      ((parse_crafting_template ins alts outs cat).map
        Transformation.get_signature).Nodup :=
  ⟨dedupBySignature_nodup _, dedupBySignature_nodup _⟩

end Minegraph

namespace Minegraph

/-! ## Claim C7: the item resolver is total and never partial -/

/-- C7: `extract_item_from_link` returns `none` when the node is not an
`<a>` element or its href lacks the `/w/` prefix, and any returned `Item` is
complete: its name is the `title` attribute when present, else the href path
segment with underscores decoded to spaces, and its url is the wiki base
plus the href. -/
theorem claim_C7_item_resolver (l : Loc) :
    ((isTag "a" l.node = false ∨
        pyStartswith (l.node.getAttrD "href" "") "/w/" = false) →
      extract_item_from_link l = none) ∧
    (∀ it, extract_item_from_link l = some it →
      it.name = (if l.node.getAttrD "title" "" ≠ "" then l.node.getAttrD "title" ""
        else pyReplaceChar (String.mk ((l.node.getAttrD "href" "").toList.drop 3))
          '_' ' ') ∧
      it.url = "https://minecraft.wiki" ++ l.node.getAttrD "href" "") := by
  constructor
  · rintro (h1 | h1)
    · simp [extract_item_from_link, h1]
    · by_cases hA : isTag "a" l.node
      · simp [extract_item_from_link, hA, h1]
      · simp [extract_item_from_link, hA]
  · intro it h
    unfold extract_item_from_link at h
    simp only [Option.ite_none_left_eq_some, Option.some.injEq] at h
    obtain ⟨-, -, -, -, -, heq⟩ := h
    rw [← heq]
    exact ⟨rfl, rfl⟩

theorem claim_C7_item_resolver_witness :
    extract_item_from_link ⟨Node.text "not a link", []⟩ = none :=
  (claim_C7_item_resolver ⟨Node.text "not a link", []⟩).1 (Or.inl (by decide))

end Minegraph

namespace Minegraph

/-! ## Claim C6: the edition classifier -/

theorem listContainsSub_iff (pat s : List Char) :
    listContainsSub pat s = true ↔ pat <:+: s := by
  induction s with
  | nil =>
      simp [listContainsSub, List.isEmpty_iff]
  | cons c rest ih =>
      rw [listContainsSub, Bool.or_eq_true, ih, List.infix_cons_iff,
        List.isPrefixOf_iff_prefix]

theorem strContains_iff (s pat : String) :
    strContains s pat = true ↔ pat.toList <:+: s.toList :=
  listContainsSub_iff pat.toList s.toList

/-- A string containing no occurrence of `pat` has no substring containing
`pat`. -/
theorem strContains_false_of_infix {s t : String} (h : s.toList <:+: t.toList)
    {pat : String} (hc : strContains t pat = false) :
    strContains s pat = false := by
  rw [← Bool.not_eq_true] at hc ⊢
  intro hs
  exact hc ((strContains_iff t pat).mpr
    (((strContains_iff s pat).mp hs).trans h))

/-- A string containing `pat` contains every substring of `pat`. -/
theorem strContains_of_pat_infix {t p q : String} (h : strContains t p = true)
    (hq : q.toList <:+: p.toList) : strContains t q = true :=
  (strContains_iff t q).mpr (hq.trans ((strContains_iff t p).mp h))

/-- Lower-casing preserves the substring relation. -/
theorem pyLower_infix {s t : String} (h : s.toList <:+: t.toList) :
    (pyLower s).toList <:+: (pyLower t).toList := by
  simpa [pyLower] using h.map Char.toLower

mutual

/-- The text of a descendant is a contiguous substring of the text of its
ancestor. -/
theorem getText_infix_desc :
    ∀ (n : Node), ∀ d ∈ n.descendants, d.getText.toList <:+: n.getText.toList
  | .text _ => by
      intro d hd
      simp [Node.descendants] at hd
  | .elem nm ats cs => by
      intro d hd
      rw [show (Node.elem nm ats cs).getText = getTextList cs from rfl]
      exact getText_infix_descList cs d (by simpa [Node.descendants] using hd)

theorem getText_infix_descList :
    ∀ (cs : List Node), ∀ d ∈ descendantsList cs,
      d.getText.toList <:+: (getTextList cs).toList
  | [] => by
      intro d hd
      simp [descendantsList] at hd
  | c :: cs' => by
      intro d hd
      have hsplit : (getTextList (c :: cs')).toList
          = c.getText.toList ++ (getTextList cs').toList := by
        show (c.getText ++ getTextList cs').toList = _
        simp [String.toList, String.data_append]
      rw [hsplit]
      simp only [descendantsList, List.mem_cons, List.mem_append] at hd
      rcases hd with rfl | hd | hd
      · exact (List.prefix_append _ _).isInfix
      · exact (getText_infix_desc c d hd).trans (List.prefix_append _ _).isInfix
      · exact (getText_infix_descList cs' d hd).trans
          (List.suffix_append _ _).isInfix

end

/-- C6: the edition classifier accepts by default — a fragment whose own
text, nearest ancestor section/div, and sibling table cells hold neither
`bedrock` nor `education` is classified Java — and rejects a fragment whose
own text holds "Bedrock Edition" without "Java Edition". -/
theorem claim_C6_edition_classifier (l : Loc) :
    ((strContains (pyLower l.node.getText) "bedrock" = false ∧
        strContains (pyLower l.node.getText) "education" = false) →
      (∀ p ∈ l.parents, (isTag "section" p.node || isTag "div" p.node) = true →
        strContains (pyLower p.node.getText) "bedrock edition" = false) →
      (∀ p ∈ l.parents, isTag "tr" p.node = true →
        ∀ cell ∈ p.node.descendants, isTag "td" cell = true →
          strContains (pyLower cell.getText) "bedrock" = false ∧
          strContains (pyLower cell.getText) "education" = false) →
      is_java_edition l = true) ∧
    (strContains (pyLower l.node.getText) "bedrock edition" = true →
      strContains (pyLower l.node.getText) "java edition" = false →
      is_java_edition l = false) := by
  constructor
  · intro hself hpar hrow
    unfold is_java_edition
    rw [if_neg (by simp [hself.1, hself.2])]
    have hparFalse : (match findParent ["section", "div"] l with
        | some p =>
            strContains (pyLower p.node.getText) "bedrock edition" &&
              !strContains (pyLower p.node.getText) "java edition"
        | none => false) = false := by
      cases hfp : findParent ["section", "div"] l with
      | none => rfl
      | some p =>
          have hmem := List.mem_of_find?_eq_some hfp
          have hpred := List.find?_some hfp
          have : (isTag "section" p.node || isTag "div" p.node) = true := by
            simpa [List.any] using hpred
          simp [hpar p hmem this]
    rw [if_neg (by simp [hparFalse])]
    cases hft : findParent ["tr"] l with
    | none => rfl
    | some row =>
        have hmem := List.mem_of_find?_eq_some hft
        have hpred := List.find?_some hft
        have htr : isTag "tr" row.node = true := by
          have := hpred
          simp only [List.any_cons, List.any_nil, Bool.or_false] at this
          exact this
        have hcells : ((row.node.descendants.filter (isTag "td")).any (fun cell =>
            ((strContains (pyLower cell.getText) "bedrock edition" ||
                strContains (pyLower cell.getText) "bedrock") &&
              (strContains (pyLower cell.getText) "education" ||
                strContains (pyLower cell.getText) "minecraft education")) ||
            (findAllByClass "sup" "Inline-Template" cell).any (fun sup =>
              (strContains (pyLower sup.getText) "bedrock" ||
                strContains (pyLower sup.getText) "education" ||
                strContains (pyLower sup.getText) "minecraft education") &&
              strContains (pyLower sup.getText) "only"))) = false := by
          rw [List.any_eq_false]
          intro cell hcell
          obtain ⟨hmemd, htd⟩ := List.mem_filter.mp hcell
          obtain ⟨hcb, hce⟩ := hrow row hmem htr cell hmemd htd
          have hcme : strContains (pyLower cell.getText) "minecraft education"
              = false := by
            by_contra hc
            rw [Bool.not_eq_false] at hc
            have h2 := strContains_of_pat_infix hc
              (show ("education".toList <:+: "minecraft education".toList) by decide)
            simp [h2] at hce
          have hsup : ((findAllByClass "sup" "Inline-Template" cell).any (fun sup =>
              (strContains (pyLower sup.getText) "bedrock" ||
                strContains (pyLower sup.getText) "education" ||
                strContains (pyLower sup.getText) "minecraft education") &&
              strContains (pyLower sup.getText) "only")) = false := by
            rw [List.any_eq_false]
            intro sup hsupm
            obtain ⟨hsmem, -⟩ := List.mem_filter.mp hsupm
            have hinf := pyLower_infix (getText_infix_desc cell sup hsmem)
            have hsb := strContains_false_of_infix hinf hcb
            have hse := strContains_false_of_infix hinf hce
            have hsme : strContains (pyLower sup.getText) "minecraft education"
                = false := by
              by_contra hc
              rw [Bool.not_eq_false] at hc
              have h2 := strContains_of_pat_infix hc
                (show ("education".toList <:+: "minecraft education".toList) by decide)
              simp [h2] at hse
            simp [hsb, hse, hsme]
          simp [hcb, hce, hcme, hsup]
        simp [hcells]
  · intro hb hj
    have : strContains (pyLower l.node.getText) "bedrock" = true :=
      strContains_of_pat_infix hb (by decide)
    simp [is_java_edition, this]

end Minegraph

namespace Minegraph

theorem claim_C6_edition_classifier_witness :
    is_java_edition ⟨Node.text "Crafting table recipe", []⟩ = true ∧
      is_java_edition ⟨Node.text "Bedrock Edition exclusive", []⟩ = false :=
  ⟨(claim_C6_edition_classifier ⟨Node.text "Crafting table recipe", []⟩).1
      (by decide) (by decide) (by decide),
   (claim_C6_edition_classifier ⟨Node.text "Bedrock Edition exclusive", []⟩).2
      (by decide) (by decide)⟩

end Minegraph

namespace Minegraph

/-! ## Claims C8, C9: the section/category locator -/

theorem categorySibScan_append_none (ss rest : List Node)
    (h : ∀ sib ∈ ss, findHeadline sib = none) :
    categorySibScan (ss ++ rest) = categorySibScan rest := by
  induction ss with
  | nil => rfl
  | cons sib ss ih =>
      rw [List.cons_append]
      have hs := h sib (by simp)
      simp only [categorySibScan, hs]
      exact ih (fun s hmem => h s (by simp [hmem]))

theorem categorySibScan_none (ss : List Node)
    (h : ∀ sib ∈ ss, findHeadline sib = none) :
    categorySibScan ss = none := by
  have := categorySibScan_append_none ss [] h
  simpa using this

theorem excludedSibScan_append_none (excluded : List String) (ss rest : List Node)
    (h : ∀ sib ∈ ss, findHeadline sib = none) :
    excludedSibScan excluded (ss ++ rest) = excludedSibScan excluded rest := by
  induction ss with
  | nil => rfl
  | cons sib ss ih =>
      rw [List.cons_append]
      have hs := h sib (by simp)
      simp only [excludedSibScan, hs]
      exact ih (fun s hmem => h s (by simp [hmem]))

theorem excludedSibScan_none (excluded : List String) (ss : List Node)
    (h : ∀ sib ∈ ss, findHeadline sib = none) :
    excludedSibScan excluded ss = none := by
  have := excludedSibScan_append_none excluded ss [] h
  simpa using this

/-- A level whose previous-sibling scan decides (`some r`) makes the walk
return `r`, provided every nearer level's scan falls through. -/
theorem extractCategorySteps_found (pre : List Loc) (cur : Loc) (post : List Loc)
    (r : Option String)
    (hpre : ∀ p ∈ pre, ∀ sib ∈ findPreviousSiblings ["h2", "h3"] p,
      findHeadline sib = none)
    (hscan : categorySibScan (findPreviousSiblings ["h2", "h3"] cur) = some r) :
    extractCategorySteps (pre ++ cur :: post) = r := by
  induction pre with
  | nil => simp only [List.nil_append, extractCategorySteps, hscan]
  | cons p pre ih =>
      have hnone : categorySibScan (findPreviousSiblings ["h2", "h3"] p) = none :=
        categorySibScan_none _ (hpre p (by simp))
      rw [List.cons_append]
      simp only [extractCategorySteps, hnone]
      exact ih (fun q hq => hpre q (by simp [hq]))

theorem extractCategorySteps_none (ls : List Loc)
    (h : ∀ p ∈ ls, ∀ sib ∈ findPreviousSiblings ["h2", "h3"] p,
      findHeadline sib = none) :
    extractCategorySteps ls = none := by
  induction ls with
  | nil => rfl
  | cons p ls ih =>
      have hnone : categorySibScan (findPreviousSiblings ["h2", "h3"] p) = none :=
        categorySibScan_none _ (h p (by simp))
      simp only [extractCategorySteps, hnone]
      exact ih (fun q hq => h q (by simp [hq]))

/-- Prefixing levels whose sibling scans fall through preserves a `true`
verdict of the exclusion walk (an early id/heading hit only strengthens
it). -/
theorem isInExcludedSteps_true_of (excluded : List String) (pre rest : List Loc)
    (hsib : ∀ p ∈ pre, ∀ sib ∈ findPreviousSiblings ["h2", "h3"] p,
      findHeadline sib = none)
    (hrest : isInExcludedSteps excluded rest = true) :
    isInExcludedSteps excluded (pre ++ rest) = true := by
  induction pre with
  | nil => simpa using hrest
  | cons p pre ih =>
      rw [List.cons_append, isInExcludedSteps]
      split_ifs with h1 h2
      · rfl
      · rfl
      · have hscan : excludedSibScan excluded
            (findPreviousSiblings ["h2", "h3"] p) = none :=
          excludedSibScan_none excluded _ (hsib p (by simp))
        simp only [hscan]
        exact ih (fun q hq => hsib q (by simp [hq]))

/-- C8: a fragment whose nearest headline-bearing previous `h2`/`h3`
sibling (on the innermost level that has one) carries an id in the
exclusion set is excluded: the category is `none` and the exclusion test is
`true`. -/
theorem claim_C8_excluded_section (l : Loc) (pre post : List Loc) (cur : Loc)
    (ss rest2 : List Node) (hd hl : Node) (hid : String)
    (hchain : l :: l.parents = pre ++ cur :: post)
    (hpre : ∀ p ∈ pre, ∀ sib ∈ findPreviousSiblings ["h2", "h3"] p,
      findHeadline sib = none)
    (hcur : findPreviousSiblings ["h2", "h3"] cur = ss ++ hd :: rest2)
    (hss : ∀ sib ∈ ss, findHeadline sib = none)
    (hhl : findHeadline hd = some hl)
    (hlid : hl.attr "id" = some hid)
    (hexc : hid ∈ EXCLUDED_CRAFTING_SECTIONS) :
    extract_category_from_element l = none ∧ is_in_excluded_section l = true := by
  have hne : hid ≠ "" := by
    rcases (by simpa [EXCLUDED_CRAFTING_SECTIONS] using hexc :
        hid = "Removed_recipes" ∨ hid = "Changed_recipes") with rfl | rfl <;> decide
  have hidT : idTruthyIn EXCLUDED_CRAFTING_SECTIONS (hl.attr "id") = true := by
    rw [hlid]
    simp [idTruthyIn, hne, hexc]
  have hscan : categorySibScan (findPreviousSiblings ["h2", "h3"] cur)
      = some none := by
    rw [hcur, categorySibScan_append_none ss _ hss]
    simp [categorySibScan, hhl, hidT]
  have hescan : excludedSibScan EXCLUDED_CRAFTING_SECTIONS
      (findPreviousSiblings ["h2", "h3"] cur) = some true := by
    rw [hcur, excludedSibScan_append_none _ ss _ hss]
    simp [excludedSibScan, hhl, hlid, hne, hexc]
  constructor
  · rw [extract_category_from_element, hchain]
    exact extractCategorySteps_found pre cur post none hpre hscan
  · rw [is_in_excluded_section, hchain]
    apply isInExcludedSteps_true_of _ pre _ hpre
    rw [isInExcludedSteps]
    split_ifs with h1 h2
    · rfl
    · rfl
    · simp [hescan]

theorem claim_C8_excluded_section_witness :
    extract_category_from_element locC8 = none ∧
      is_in_excluded_section locC8 = true :=
  claim_C8_excluded_section locC8 [] locC8.parents locC8 [] []
    (wikiHeading "Removed_recipes" "Removed recipes")
    (wikiHeadline "Removed_recipes" "Removed recipes") "Removed_recipes"
    rfl (by simp) rfl (by simp) rfl rfl (by decide)

/-- C9 counterexample: the normalization replaces each space with an
underscore instead of collapsing whitespace runs — a heading text with two
consecutive spaces yields a double underscore, not the single underscore the
claim asserts. -/
theorem claim_C9_counterexample :
    extract_category_from_element locC9x = some "oak__planks" ∧
      "oak__planks" ≠ "oak_planks" := by
  constructor
  · decide
  · decide

/-- C9 amended: when the walk's first decisive headline has a non-excluded
id and non-empty stripped text, the category is that text lower-cased with
characters that are neither word nor whitespace removed and each space
character replaced by one underscore (`normalizeCategory`); with no
headline found anywhere the category is `none`. -/
theorem claim_C9_category_slug (l : Loc) :
    (∀ (pre : List Loc) (cur : Loc) (post : List Loc) (ss : List Node)
        (hd : Node) (rest2 : List Node) (hl : Node),
      l :: l.parents = pre ++ cur :: post →
      (∀ p ∈ pre, ∀ sib ∈ findPreviousSiblings ["h2", "h3"] p,
        findHeadline sib = none) →
      findPreviousSiblings ["h2", "h3"] cur = ss ++ hd :: rest2 →
      (∀ sib ∈ ss, findHeadline sib = none) →
      findHeadline hd = some hl →
      idTruthyIn EXCLUDED_CRAFTING_SECTIONS (hl.attr "id") = false →
      hl.getTextStrip ≠ "" →
      extract_category_from_element l = some (normalizeCategory hl.getTextStrip)) ∧
    ((∀ p ∈ l :: l.parents, ∀ sib ∈ findPreviousSiblings ["h2", "h3"] p,
        findHeadline sib = none) →
      extract_category_from_element l = none) := by
  constructor
  · intro pre cur post ss hd rest2 hl hchain hpre hcur hss hhl hnotexc htext
    have hscan : categorySibScan (findPreviousSiblings ["h2", "h3"] cur)
        = some (some (normalizeCategory hl.getTextStrip)) := by
      rw [hcur, categorySibScan_append_none ss _ hss]
      simp [categorySibScan, hhl, hnotexc, htext]
    rw [extract_category_from_element, hchain]
    exact extractCategorySteps_found pre cur post _ hpre hscan
  · intro h
    rw [extract_category_from_element]
    exact extractCategorySteps_none _ h

theorem claim_C9_category_slug_witness :
    extract_category_from_element locC9w = some "crafting_recipes" := by
  have h := (claim_C9_category_slug locC9w).1 [] locC9w locC9w.parents []
    (wikiHeading "Crafting" "Crafting recipes") []
    (wikiHeadline "Crafting" "Crafting recipes")
    rfl (by simp) rfl (by simp) rfl (by decide) (by decide)
  rw [h]
  decide

end Minegraph
